import Mathlib

/-!
Shallow embedding of the text-embedding service of this repository
(`src/embedings.py` together with the FastAPI shim `src/api.py`).

Modelling conventions:

* Floating-point arithmetic is modelled as exact arithmetic in a linear
  ordered field `K` (instantiated with `ℚ` in concrete witnesses); the float
  literals `1e-9` and `1e-12` become the exact constants `eps9` and `eps12`.
* The external pieces — the HuggingFace tokenizer plus the model forward pass
  of `_embed_batch` (lines 50-66), and the square-root routine used inside
  `torch.nn.functional.normalize` — are abstracted as the fields `encode` and
  `sq` of a `Service` structure.  The tensor-shape facts the libraries
  guarantee (the leading dimension of `last_hidden_state` and
  `attention_mask` equals the number of texts of the batch, every hidden row
  has the model's hidden size, the mask has one entry per token) are recorded
  as propositional fields of the structure.
* A python exception is an `Except.error`; the distinct failure shapes of the
  scheduler are the constructors of `EmbedError` (`inference` for an
  exception escaping a chunk's `_embed_batch`, `emptyVstack` for the
  `ValueError` of `np.vstack([])`, `indexError` for `result[0]` on an empty
  list).
* `asyncio.gather` is modelled by `gatherPositional`: the results of the
  chunk tasks are collected positionally; if some task fails, the failure of
  the first-completed failing task is propagated, where the completion order
  of the tasks is an explicit parameter `ord : List Nat` (a permutation of
  the task indices for a real execution).
-/

namespace EmbedSvc

variable {K : Type} [LinearOrderedField K] {E : Type} {α β : Type}

/-- The float constant `1e-9`, the floor used by `torch.clamp(..., min=1e-9)`
in `_mean_pooling` (src/embedings.py line 88). -/
def eps9 (K : Type) [LinearOrderedField K] : K := 1 / 1000000000

/-- The float constant `1e-12`, the default `eps` of
`torch.nn.functional.normalize` used at src/embedings.py line 73. -/
def eps12 (K : Type) [LinearOrderedField K] : K := 1 / 1000000000000

/-- Sum of squares of the entries of a vector; the square of its L2 norm. -/
def sumSq (v : List K) : K := (v.map (fun x => x * x)).sum

/-- Reading entry `d` of a vector (0 outside the range), used to state the
pointwise characterization of the tensor operations. -/
def entry (v : List K) (d : Nat) : K := (v[d]?).getD 0

/-- One text's slice of `_mean_pooling` (src/embedings.py lines 77-89).
`token_embeddings` is the text's `T × D` block of `last_hidden_state`
(a list of `T` per-token rows), `attention_mask` its `T` mask entries.
The code expands the mask over the hidden dimension, multiplies
(`token_embeddings * input_mask_expanded`), sums over the sequence
dimension, clamps the summed mask at `1e-9` and divides. -/
def meanPooling (token_embeddings : List (List K)) (attention_mask : List K) : List K :=
  let weighted := List.zipWith (fun row m => row.map (fun x => x * m))
      token_embeddings attention_mask
  let sum_embeddings := weighted.foldl (fun acc r => List.zipWith (fun a b => a + b) acc r)
      (List.replicate (token_embeddings.headD []).length 0)
  let sum_mask := max attention_mask.sum (eps9 K)
  sum_embeddings.map (fun x => x / sum_mask)

/-- `torch.nn.functional.normalize(embeddings, p=2, dim=1)` on one row
(src/embedings.py line 73): divide every entry by `max(‖v‖₂, 1e-12)`.
`sq` is the square-root routine of the numeric library, applied to the sum
of squares. -/
def l2normalize (sq : K → K) (v : List K) : List K :=
  v.map (fun x => x / max (sq (sumSq v)) (eps12 K))

/-- The service state built by `OptimizedEmbeddingService.__init__`
(src/embedings.py lines 11-38).  `encode` abstracts the external pipeline
`tokenizer(...)` followed by `self.model(**encoded)` of `_embed_batch`
(lines 50-66): for a batch of texts it either raises (`Except.error`) or
returns, per text, the pair of its per-token hidden rows and its attention
mask entries.  `sq` abstracts the square root used by `F.normalize`.
The three propositional fields record the tensor-shape guarantees of the
external libraries. -/
structure Service (K E : Type) [LinearOrderedField K] where
  batch_size : Nat
  dim : Nat
  encode : List String → Except E (List (List (List K) × List K))
  sq : K → K
  batch_size_pos : 0 < batch_size
  encode_len : ∀ ts enc, encode ts = Except.ok enc → enc.length = ts.length
  encode_shape : ∀ ts enc, encode ts = Except.ok enc → ∀ p ∈ enc,
    p.1 ≠ [] ∧ (∀ row ∈ p.1, row.length = dim) ∧ p.2.length = p.1.length

/-- `_embed_batch` (src/embedings.py lines 48-75): tokenize and run the
model (`encode`), mean-pool every text's rows, L2-normalize every pooled
vector. -/
def embedBatch (M : Service K E) (texts : List String) : Except E (List (List K)) :=
  match M.encode texts with
  | Except.error e => Except.error e
  | Except.ok enc => Except.ok (enc.map (fun p => l2normalize M.sq (meanPooling p.1 p.2)))

/-- The mean-pooled (not yet normalized) vectors `_embed_batch` computes for
a batch, `[]` if inference fails. -/
def pooledOf (M : Service K E) (texts : List String) : List (List K) :=
  match M.encode texts with
  | Except.error _ => []
  | Except.ok enc => enc.map (fun p => meanPooling p.1 p.2)

/-- The chunking comprehension
`[texts[i:i + self.batch_size] for i in range(0, len(texts), self.batch_size)]`
(src/embedings.py lines 103-106 and the loop of lines 136-137):
`range(0, n, B)` has `⌈n / B⌉` elements `0, B, 2B, ...` and the slice
`texts[i:i+B]` is `(texts.drop i).take B`. -/
def chunks (B : Nat) (xs : List α) : List (List α) :=
  (List.range' 0 ((xs.length + B - 1) / B) B).map (fun i => (xs.drop i).take B)

/-- The `Union[str, List[str]]` argument of `embed_sync` / `embed_async`. -/
inductive TextInput where
  | str (s : String)
  | list (ts : List String)

/-- The `Union[List[float], List[List[float]]]` result: a single flat vector
for a single-string input, a list of vectors otherwise. -/
inductive EmbedOut (K : Type) where
  | single (v : List K)
  | multi (vs : List (List K))

/-- The exceptions that can escape the scheduler: an inference exception
raised inside a chunk's `_embed_batch`, the `ValueError` of `np.vstack` on
an empty list of arrays, and the `IndexError` of `result[0]` on an empty
result. -/
inductive EmbedError (E : Type) where
  | inference (e : E)
  | emptyVstack
  | indexError

/-- The vectors a result hands to the caller. -/
def vectorsOf : EmbedOut K → List (List K)
  | EmbedOut.single v => [v]
  | EmbedOut.multi vs => vs

/-- `np.vstack` (src/embedings.py lines 116 and 141): concatenates the
per-chunk row blocks; raises `ValueError` when given no arrays at all. -/
def vstack : List (List (List K)) → Except (EmbedError E) (List (List K))
  | [] => Except.error EmbedError.emptyVstack
  | r :: rs => Except.ok ((r :: rs).flatten)

/-- Input normalization shared by both entry points (src/embedings.py
lines 95-99 and 128-132): a single string is wrapped into a one-element
list, and the `single_input` flag is remembered. -/
def normalizeInput : TextInput → List String × Bool
  | TextInput.str s => ([s], true)
  | TextInput.list ts => (ts, false)

/-- The tail shared by both entry points (src/embedings.py lines 118-122 and
143-147): `result = all_embeddings.tolist()`, then `result[0]` if the input
was a single string (an `IndexError` if the result is empty), else the full
list. -/
def finishEmbed : Bool → List (List K) → Except (EmbedError E) (EmbedOut K)
  | false, all => Except.ok (EmbedOut.multi all)
  | true, [] => Except.error EmbedError.indexError
  | true, v :: _ => Except.ok (EmbedOut.single v)

/-- The sequential chunk loop of `embed_sync` (src/embedings.py
lines 136-139): run `_embed_batch` on every chunk in order, stopping at the
first exception. -/
def runChunks (M : Service K E) : List (List String) → Except E (List (List (List K)))
  | [] => Except.ok []
  | b :: bs =>
    match embedBatch M b, runChunks M bs with
    | Except.error e, _ => Except.error e
    | Except.ok _, Except.error e => Except.error e
    | Except.ok r, Except.ok rs => Except.ok (r :: rs)

/-- Positional collection of task results: the list of values if every task
succeeded, otherwise the first failure in list order. -/
def collectOk : List (Except E α) → Except E (List α)
  | [] => Except.ok []
  | Except.error e :: _ => Except.error e
  | Except.ok a :: rs =>
    match collectOk rs with
    | Except.error e => Except.error e
    | Except.ok ys => Except.ok (a :: ys)

/-- The failure of the first-completed failing task: walk the completion
order `ord` and return the first index whose task result is an exception. -/
def firstFailure (ord : List Nat) (rs : List (Except E α)) : Option E :=
  ord.findSome? (fun i =>
    match rs[i]? with
    | some (Except.error e) => some e
    | _ => none)

/-- `await asyncio.gather(*tasks)` (src/embedings.py line 114): results are
gathered positionally, not in completion order; if some task raises, the
exception of the first-completed failing task (the first failing index of
the completion order `ord`) is propagated.  For a real execution `ord` is a
permutation of the task indices; if `ord` were to miss the failing index the
positional collection still propagates a failure, so no partial result can
ever be produced. -/
def gatherPositional (ord : List Nat) (rs : List (Except E α)) : Except E (List α) :=
  match firstFailure ord rs with
  | some e => Except.error e
  | none => collectOk rs

/-- `embed_sync` (src/embedings.py lines 124-147): normalize the input, run
the chunks sequentially, `np.vstack` the per-chunk blocks, unwrap a
single-string result. -/
def embedSync (M : Service K E) (input : TextInput) : Except (EmbedError E) (EmbedOut K) :=
  match runChunks M (chunks M.batch_size (normalizeInput input).1) with
  | Except.error e => Except.error (EmbedError.inference e)
  | Except.ok rs =>
    match (vstack rs : Except (EmbedError E) (List (List K))) with
    | Except.error e => Except.error e
    | Except.ok all => finishEmbed (normalizeInput input).2 all

/-- `embed_async` (src/embedings.py lines 91-122): normalize the input,
submit one `_embed_batch` task per chunk to the executor, gather the results
positionally (`ord` is the completion order of the tasks), `np.vstack` the
per-chunk blocks, unwrap a single-string result. -/
def embedAsync (M : Service K E) (ord : List Nat) (input : TextInput) :
    Except (EmbedError E) (EmbedOut K) :=
  match gatherPositional ord
      ((chunks M.batch_size (normalizeInput input).1).map (fun b => embedBatch M b)) with
  | Except.error e => Except.error (EmbedError.inference e)
  | Except.ok rs =>
    match (vstack rs : Except (EmbedError E) (List (List K))) with
    | Except.error e => Except.error e
    | Except.ok all => finishEmbed (normalizeInput input).2 all

/-- `get_embedding_dimension` (src/embedings.py lines 149-151): embed the
fixed probe string `"test"` through `embed_sync` and measure the length of
what comes back (`len` of a flat vector for the single-string call; the
`multi` branch mirrors `len` of a list of vectors and is unreachable here). -/
def getEmbeddingDimension (M : Service K E) : Except (EmbedError E) Nat :=
  match embedSync M (TextInput.str "test") with
  | Except.error e => Except.error e
  | Except.ok (EmbedOut.single v) => Except.ok v.length
  | Except.ok (EmbedOut.multi vs) => Except.ok vs.length

/-- The body of `EmbeddingResponse` (src/api.py lines 71-84). -/
structure ApiResponse (K : Type) where
  embeddings : EmbedOut K
  dimension : Nat
  count : Nat

/-- The HTTP-level failures of the endpoints: the 400 of an empty
`/embed/batch` query list, a core exception mapped to a 500, and the
`IndexError` / `TypeError` raised while building the response (also a 500). -/
inductive ApiError (E : Type) where
  | badRequestEmpty
  | internal (e : EmbedError E)
  | responseIndex

/-- The count/dimension logic of the `/embed` endpoint (src/api.py
lines 135-147): `isinstance(embeddings[0], list)` decides between the
list-of-vectors case (`count = len(embeddings)`,
`dimension = len(embeddings[0])`) and the flat-vector case (`count = 1`,
`dimension = len(embeddings)`); `embeddings[0]` on an empty result raises. -/
def responseOf : EmbedOut K → Option (ApiResponse K)
  | EmbedOut.single [] => none
  | EmbedOut.single (x :: xs) => some ⟨EmbedOut.single (x :: xs), (x :: xs).length, 1⟩
  | EmbedOut.multi [] => none
  | EmbedOut.multi (v :: vs) => some ⟨EmbedOut.multi (v :: vs), v.length, (v :: vs).length⟩

/-- The `/embed` endpoint (src/api.py lines 120-153): call `embed_async`,
then build the response; any exception becomes a 500. -/
def apiEmbed (M : Service K E) (ord : List Nat) (query : TextInput) :
    Except (ApiError E) (ApiResponse K) :=
  match embedAsync M ord query with
  | Except.error e => Except.error (ApiError.internal e)
  | Except.ok out =>
    match responseOf out with
    | none => Except.error ApiError.responseIndex
    | some r => Except.ok r

/-- The response building of the `/embed/batch` endpoint (src/api.py
lines 174-178): `dimension = len(embeddings[0])`, `count = len(embeddings)`,
with no `isinstance` inspection; `embeddings[0]` of an empty list raises,
and `len` of a float (the `single` case, unreachable for a list query)
raises as well. -/
def batchResponseOf : EmbedOut K → Option (ApiResponse K)
  | EmbedOut.single _ => none
  | EmbedOut.multi [] => none
  | EmbedOut.multi (v :: vs) => some ⟨EmbedOut.multi (v :: vs), v.length, (v :: vs).length⟩

/-- The `/embed/batch` endpoint (src/api.py lines 156-184): reject an empty
query list with a 400 before the core is called, otherwise call
`embed_async` and build the response. -/
def apiEmbedBatch (M : Service K E) (ord : List Nat) (queries : List String) :
    Except (ApiError E) (ApiResponse K) :=
  if queries.isEmpty then Except.error ApiError.badRequestEmpty
  else
    match embedAsync M ord (TextInput.list queries) with
    | Except.error e => Except.error (ApiError.internal e)
    | Except.ok out =>
      match batchResponseOf out with
      | none => Except.error ApiError.responseIndex
      | some r => Except.ok r

/-- Concrete instance used by witnesses: every text encodes to a single real
token with hidden row `[3, 4]` and mask `[1]`; the square-root routine is
correct at the only value it is applied to (`sq 25 = 5`). -/
def toyA : Service ℚ Unit where
  batch_size := 32
  dim := 2
  encode := fun ts => Except.ok (ts.map (fun _ => ([[3, 4]], [1])))
  sq := fun s => if s = 25 then 5 else 0
  batch_size_pos := by norm_num
  encode_len := by intro ts enc h; cases h; simp
  encode_shape := by
    intro ts enc h p hp
    cases h
    simp only [List.mem_map] at hp
    obtain ⟨t, _, rfl⟩ := hp
    refine ⟨by simp, ?_, by simp⟩
    intro row hrow
    simp at hrow
    simp [hrow]

/-- Like `toyA` but with `batch_size = 2`, so that three texts split into two
chunks. -/
def toyB : Service ℚ Unit where
  batch_size := 2
  dim := 2
  encode := fun ts => Except.ok (ts.map (fun _ => ([[3, 4]], [1])))
  sq := fun s => if s = 25 then 5 else 0
  batch_size_pos := by norm_num
  encode_len := by intro ts enc h; cases h; simp
  encode_shape := by
    intro ts enc h p hp
    cases h
    simp only [List.mem_map] at hp
    obtain ⟨t, _, rfl⟩ := hp
    refine ⟨by simp, ?_, by simp⟩
    intro row hrow
    simp at hrow
    simp [hrow]

/-- Concrete instance of the all-padding scenario: every text tokenizes to
two padding tokens (attention mask `[0, 0]`), as the spec asserts an empty
string does. -/
def toyZ : Service ℚ Unit where
  batch_size := 32
  dim := 2
  encode := fun ts => Except.ok (ts.map (fun _ => ([[1, 2], [3, 4]], [0, 0])))
  sq := fun _ => 0
  batch_size_pos := by norm_num
  encode_len := by intro ts enc h; cases h; simp
  encode_shape := by
    intro ts enc h p hp
    cases h
    simp only [List.mem_map] at hp
    obtain ⟨t, _, rfl⟩ := hp
    refine ⟨by simp, ?_, by simp⟩
    intro row hrow
    simp at hrow
    rcases hrow with h1 | h1 <;> simp [h1]

/-- Concrete instance whose inference raises on any one-element batch, so
that with `batch_size = 2` the second chunk of a three-text request fails
while the first succeeds. -/
def toyF : Service ℚ Unit where
  batch_size := 2
  dim := 2
  encode := fun ts =>
    if ts.length = 1 then Except.error () else Except.ok (ts.map (fun _ => ([[3, 4]], [1])))
  sq := fun s => if s = 25 then 5 else 0
  batch_size_pos := by norm_num
  encode_len := by
    intro ts enc h
    by_cases hb : ts.length = 1 <;> simp [hb] at h
    cases h; simp
  encode_shape := by
    intro ts enc h p hp
    by_cases hb : ts.length = 1 <;> simp [hb] at h
    cases h
    have hp2 := List.eq_of_mem_replicate hp
    subst hp2
    refine ⟨by simp, ?_, by simp⟩
    intro row hrow
    simp at hrow
    simp [hrow]

/-! ### Chunking lemmas -/

theorem chunks_nil (B : Nat) : chunks B ([] : List α) = [] := by
  have h : (B - 1) / B = 0 := by
    rcases Nat.eq_zero_or_pos B with rfl | hB
    · simp
    · exact Nat.div_eq_of_lt (by omega)
  simp [chunks, h]

theorem chunks_cons {B : Nat} (hB : 0 < B) {xs : List α} (hxs : xs ≠ []) :
    chunks B xs = xs.take B :: chunks B (xs.drop B) := by
  have hlen : 0 < xs.length := List.length_pos.mpr hxs
  have hk : (xs.length + B - 1) / B = ((xs.drop B).length + B - 1) / B + 1 := by
    rw [List.length_drop]
    have h1 : xs.length + B - 1 = (xs.length - 1) + B := by omega
    rw [h1, Nat.add_div_right _ hB]
    rcases le_or_lt xs.length B with h | h
    · have h2 : xs.length - B = 0 := by omega
      rw [h2]
      have h3 : (0 + B - 1) / B = 0 := Nat.div_eq_of_lt (by omega)
      have h4 : (xs.length - 1) / B = 0 := Nat.div_eq_of_lt (by omega)
      rw [h3, h4]
    · have h2 : xs.length - B + B - 1 = (xs.length - 1 - B) + B := by omega
      rw [h2, Nat.add_div_right _ hB]
      have h3 : (xs.length - 1 - B) + B = xs.length - 1 := by omega
      conv_lhs => rw [← h3]
      rw [Nat.add_div_right _ hB]
  show (List.range' 0 ((xs.length + B - 1) / B) B).map _ = _
  rw [hk, List.range'_succ]
  simp only [List.map_cons, List.drop_zero, Nat.zero_add]
  refine congrArg (xs.take B :: ·) ?_
  have hr : List.range' B (((xs.drop B).length + B - 1) / B) B
      = (List.range' 0 (((xs.drop B).length + B - 1) / B) B).map (fun i => B + i) := by
    have := List.map_add_range' B 0 (((xs.drop B).length + B - 1) / B) B
    simpa using this.symm
  rw [hr, List.map_map]
  apply List.map_congr_left
  intro i _
  simp only [Function.comp_apply]
  rw [List.drop_drop]

theorem chunks_length (B : Nat) (xs : List α) :
    (chunks B xs).length = (xs.length + B - 1) / B := by
  simp [chunks]

theorem chunks_flatten {B : Nat} (hB : 0 < B) :
    ∀ n (xs : List α), xs.length ≤ n → (chunks B xs).flatten = xs := by
  intro n
  induction n with
  | zero =>
    intro xs h
    have : xs = [] := List.eq_nil_of_length_eq_zero (by omega)
    simp [this, chunks_nil]
  | succ n ih =>
    intro xs h
    rcases eq_or_ne xs [] with rfl | hxs
    · simp [chunks_nil]
    · rw [chunks_cons hB hxs]
      simp only [List.flatten_cons]
      rw [ih (xs.drop B) (by simp only [List.length_drop]; omega)]
      exact List.take_append_drop B xs

theorem chunks_flatten_self {B : Nat} (hB : 0 < B) (xs : List α) :
    (chunks B xs).flatten = xs :=
  chunks_flatten hB xs.length xs le_rfl

theorem chunks_length_pos {B : Nat} {xs : List α} (hB : 0 < B) (hxs : xs ≠ []) :
    0 < (chunks B xs).length := by
  rw [chunks_cons hB hxs]
  simp

theorem mem_chunks {B : Nat} (hB : 0 < B) {xs : List α} {c : List α}
    (hc : c ∈ chunks B xs) : c.length ≤ B ∧ c ≠ [] := by
  simp only [chunks, List.mem_map] at hc
  obtain ⟨i, hi, rfl⟩ := hc
  rw [List.mem_range'] at hi
  obtain ⟨j, hj, rfl⟩ := hi
  have h4 : 0 < xs.length := by
    rcases Nat.eq_zero_or_pos xs.length with h0 | h0
    · exfalso
      rw [h0] at hj
      have : (0 + B - 1) / B = 0 := Nat.div_eq_of_lt (by omega)
      omega
    · exact h0
  constructor
  · exact le_trans (le_of_eq (List.length_take _ _)) (min_le_left _ _)
  · have h2 : ((xs.length + B - 1) / B) * B ≤ xs.length + B - 1 := Nat.div_mul_le_self _ _
    have h3 : (j + 1) * B ≤ ((xs.length + B - 1) / B) * B := Nat.mul_le_mul_right B hj
    have h6 : (j + 1) * B ≤ xs.length + B - 1 := le_trans h3 h2
    have e : xs.length + B - 1 = (xs.length - 1) + B := by omega
    have e2 : (j + 1) * B = j * B + B := by ring
    rw [e, e2] at h6
    have h7 : j * B ≤ xs.length - 1 := Nat.le_of_add_le_add_right h6
    have h8 : j * B < xs.length := lt_of_le_of_lt h7 (Nat.sub_lt h4 Nat.one_pos)
    intro hnil
    have h0 : ((xs.drop (0 + B * j)).take B).length = 0 := by rw [hnil]; rfl
    rw [List.length_take, List.length_drop] at h0
    rw [Nat.mul_comm B j] at h0
    omega

theorem chunks_getElem? {B : Nat} {xs : List α} {i : Nat}
    (hi : i < (chunks B xs).length) :
    (chunks B xs)[i]? = some ((xs.drop (B * i)).take B) := by
  rw [chunks_length] at hi
  simp only [chunks, List.getElem?_map, List.getElem?_range' 0 B hi]
  simp

theorem chunks_full_length {B : Nat} {xs : List α} {i : Nat}
    (hBi : (i + 1) * B ≤ xs.length) :
    ((xs.drop (B * i)).take B).length = B := by
  rw [List.length_take, List.length_drop]
  have e : (i + 1) * B = i * B + B := by ring
  rw [e, Nat.mul_comm i B] at hBi
  omega

theorem chunks_early_full {B : Nat} (hB : 0 < B) {xs : List α} {i j : Nat}
    (hi : i < (chunks B xs).length) (hj : j < i) :
    (j + 1) * B ≤ xs.length := by
  rw [chunks_length] at hi
  have h2 : ((xs.length + B - 1) / B) * B ≤ xs.length + B - 1 := Nat.div_mul_le_self _ _
  have h3 : (i + 1) * B ≤ ((xs.length + B - 1) / B) * B := Nat.mul_le_mul_right B hi
  have h4 : 0 < xs.length := by
    rcases Nat.eq_zero_or_pos xs.length with h0 | h0
    · exfalso
      rw [h0] at hi
      have : (0 + B - 1) / B = 0 := Nat.div_eq_of_lt (by omega)
      omega
    · exact h0
  have hA : (j + 1) * B ≤ i * B := Nat.mul_le_mul_right B (by omega)
  have hB2 : i * B + B ≤ xs.length + B - 1 := by
    have e : i * B + B = (i + 1) * B := by ring
    rw [e]
    exact le_trans h3 h2
  have e2 : xs.length + B - 1 = (xs.length - 1) + B := by omega
  rw [e2] at hB2
  have hC : i * B ≤ xs.length - 1 := Nat.le_of_add_le_add_right hB2
  exact le_trans (le_trans hA hC) (Nat.sub_le _ _)

/-! ### Collection and scheduling lemmas -/

theorem collectOk_map_ok (ys : List α) :
    collectOk (ys.map (Except.ok : α → Except E α)) = Except.ok ys := by
  induction ys with
  | nil => rfl
  | cons y ys ih => simp [collectOk, ih]

theorem collectOk_ok {rs : List (Except E α)} {ys : List α}
    (h : collectOk rs = Except.ok ys) : rs = ys.map Except.ok := by
  induction rs generalizing ys with
  | nil =>
    unfold collectOk at h
    cases h
    rfl
  | cons r rs ih =>
    cases r with
    | error e => simp [collectOk] at h
    | ok a =>
      cases hc : collectOk rs with
      | error e => simp [collectOk, hc] at h
      | ok zs =>
        simp only [collectOk, hc] at h
        cases h
        simp [ih hc]

theorem collectOk_eq_ok_iff {rs : List (Except E α)} {ys : List α} :
    collectOk rs = Except.ok ys ↔ rs = ys.map Except.ok :=
  ⟨collectOk_ok, fun h => h ▸ collectOk_map_ok ys⟩

theorem collectOk_error_of_mem {rs : List (Except E α)} {e : E}
    (h : Except.error e ∈ rs) : ∃ e2, collectOk rs = Except.error e2 := by
  induction rs with
  | nil => simp at h
  | cons r rs ih =>
    cases r with
    | error e3 => exact ⟨e3, rfl⟩
    | ok a =>
      simp only [List.mem_cons] at h
      rcases h with h | h
      · exact absurd h (by simp)
      obtain ⟨e2, he2⟩ := ih h
      exact ⟨e2, by simp [collectOk, he2]⟩

theorem firstFailure_none_of_all_ok {ord : List Nat} {ys : List α} :
    firstFailure ord (ys.map (Except.ok : α → Except E α)) = none := by
  unfold firstFailure
  rw [List.findSome?_eq_none_iff]
  intro i _
  cases h2 : (ys.map (Except.ok : α → Except E α))[i]? with
  | none => simp [h2]
  | some r =>
    rw [List.getElem?_map] at h2
    cases h3 : ys[i]? with
    | none => rw [h3] at h2; cases h2
    | some y =>
      rw [h3] at h2
      cases h2
      simp

theorem firstFailure_some_exists {ord : List Nat} {rs : List (Except E α)} {e : E}
    (h : firstFailure ord rs = some e) : Except.error e ∈ rs := by
  unfold firstFailure at h
  obtain ⟨i, _, hi⟩ := List.exists_of_findSome?_eq_some h
  cases h2 : rs[i]? with
  | none => rw [h2] at hi; cases hi
  | some r =>
    rw [h2] at hi
    cases r with
    | error e2 =>
      cases hi
      exact List.getElem?_mem h2
    | ok a => cases hi

theorem gatherPositional_eq_ok_iff {ord : List Nat} {rs : List (Except E α)} {ys : List α} :
    gatherPositional ord rs = Except.ok ys ↔ collectOk rs = Except.ok ys := by
  constructor
  · intro h
    unfold gatherPositional at h
    cases hf : firstFailure ord rs with
    | some e => rw [hf] at h; cases h
    | none => rw [hf] at h; exact h
  · intro h
    have hall := collectOk_ok h
    unfold gatherPositional
    rw [hall, firstFailure_none_of_all_ok, ← hall]
    exact h

theorem gatherPositional_error_of_mem (ord : List Nat) {rs : List (Except E α)} {e : E}
    (h : Except.error e ∈ rs) : ∃ e2, gatherPositional ord rs = Except.error e2 := by
  unfold gatherPositional
  cases hf : firstFailure ord rs with
  | some e2 => exact ⟨e2, rfl⟩
  | none =>
    obtain ⟨e2, he2⟩ := collectOk_error_of_mem h
    exact ⟨e2, by rw [he2]⟩

theorem runChunks_eq_collectOk (M : Service K E) (bs : List (List String)) :
    runChunks M bs = collectOk (bs.map (fun b => embedBatch M b)) := by
  induction bs with
  | nil => rfl
  | cons b bs ih =>
    cases hb : embedBatch M b with
    | error e => simp [runChunks, hb, collectOk]
    | ok r =>
      cases hc : runChunks M bs with
      | error e => simp [runChunks, hb, hc, collectOk, ← ih]
      | ok rs => simp [runChunks, hb, hc, collectOk, ← ih]

theorem runChunks_ok_forall {M : Service K E} {bs : List (List String)}
    {rs : List (List (List K))} (h : runChunks M bs = Except.ok rs) :
    rs.length = bs.length ∧
      ∀ i, i < bs.length →
        ∃ b r, bs[i]? = some b ∧ rs[i]? = some r ∧ embedBatch M b = Except.ok r := by
  induction bs generalizing rs with
  | nil =>
    unfold runChunks at h
    cases h
    exact ⟨rfl, by intro i hi; cases hi⟩
  | cons b bs ih =>
    unfold runChunks at h
    cases hb : embedBatch M b with
    | error e => rw [hb] at h; cases h
    | ok r =>
      rw [hb] at h
      cases hc : runChunks M bs with
      | error e => rw [hc] at h; cases h
      | ok rs2 =>
        rw [hc] at h
        cases h
        obtain ⟨hlen, hfor⟩ := ih hc
        refine ⟨by simp [hlen], ?_⟩
        intro i hi
        cases i with
        | zero => exact ⟨b, r, by simp, by simp, hb⟩
        | succ i =>
          obtain ⟨b2, r2, hb2, hr2, he2⟩ := hfor i (by simpa using hi)
          exact ⟨b2, r2, by simpa using hb2, by simpa using hr2, he2⟩

theorem runChunks_ok_mem {M : Service K E} {bs : List (List String)}
    {rs : List (List (List K))} (h : runChunks M bs = Except.ok rs) :
    ∀ r ∈ rs, ∃ b ∈ bs, embedBatch M b = Except.ok r := by
  induction bs generalizing rs with
  | nil =>
    unfold runChunks at h
    cases h
    simp
  | cons b bs ih =>
    unfold runChunks at h
    cases hb : embedBatch M b with
    | error e => rw [hb] at h; cases h
    | ok r =>
      rw [hb] at h
      cases hc : runChunks M bs with
      | error e => rw [hc] at h; cases h
      | ok rs2 =>
        rw [hc] at h
        cases h
        intro r2 hr2
        simp only [List.mem_cons] at hr2
        rcases hr2 with rfl | hr2
        · exact ⟨b, by simp, hb⟩
        · obtain ⟨b2, hb2, he2⟩ := ih hc r2 hr2
          exact ⟨b2, by simp [hb2], he2⟩

theorem runChunks_error_of_chunk {M : Service K E} {bs : List (List String)}
    {b : List String} {e : E} (hb : b ∈ bs) (he : embedBatch M b = Except.error e) :
    ∃ e2, runChunks M bs = Except.error e2 := by
  induction bs with
  | nil => simp at hb
  | cons b2 bs ih =>
    simp only [List.mem_cons] at hb
    cases hb2 : embedBatch M b2 with
    | error e2 => exact ⟨e2, by simp [runChunks, hb2]⟩
    | ok r =>
      rcases hb with rfl | hb
      · rw [hb2] at he; cases he
      · obtain ⟨e2, he2⟩ := ih hb
        exact ⟨e2, by simp [runChunks, hb2, he2]⟩

/-! ### `_embed_batch` shape lemmas -/

theorem embedBatch_ok {M : Service K E} {ts : List String} {vs : List (List K)}
    (h : embedBatch M ts = Except.ok vs) :
    ∃ enc, M.encode ts = Except.ok enc ∧
      vs = enc.map (fun p => l2normalize M.sq (meanPooling p.1 p.2)) := by
  unfold embedBatch at h
  cases he : M.encode ts with
  | error e => rw [he] at h; cases h
  | ok enc =>
    rw [he] at h
    cases h
    exact ⟨enc, rfl, rfl⟩

theorem embedBatch_ok_length {M : Service K E} {ts : List String} {vs : List (List K)}
    (h : embedBatch M ts = Except.ok vs) : vs.length = ts.length := by
  obtain ⟨enc, he, rfl⟩ := embedBatch_ok h
  simp [M.encode_len ts enc he]

/-! ### Pooling and normalization lemmas -/

theorem mem_zipWith_exists {f : α → β → γ} {a : List α} {b : List β} {c : γ}
    (h : c ∈ List.zipWith f a b) : ∃ x ∈ a, ∃ y ∈ b, c = f x y := by
  induction a generalizing b with
  | nil => simp at h
  | cons x xs ih =>
    cases b with
    | nil => simp at h
    | cons y ys =>
      simp only [List.zipWith_cons_cons, List.mem_cons] at h
      rcases h with rfl | h
      · exact ⟨x, by simp, y, by simp, rfl⟩
      · obtain ⟨x2, hx2, y2, hy2, rfl⟩ := ih h
        exact ⟨x2, by simp [hx2], y2, by simp [hy2], rfl⟩

theorem sumSq_nonneg (v : List K) : 0 ≤ sumSq v := by
  unfold sumSq
  induction v with
  | nil => simp
  | cons x xs ih =>
    simp only [List.map_cons, List.sum_cons]
    exact add_nonneg (mul_self_nonneg x) ih

theorem sumSq_map_div (v : List K) (c : K) :
    sumSq (v.map (fun x => x / c)) = sumSq v / (c * c) := by
  unfold sumSq
  rw [List.map_map]
  induction v with
  | nil => simp
  | cons x xs ih =>
    simp only [List.map_cons, List.sum_cons, Function.comp_apply]
    rw [ih, div_mul_div_comm, add_div]

theorem eps9_pos : (0 : K) < eps9 K := by
  unfold eps9
  positivity

theorem eps12_pos : (0 : K) < eps12 K := by
  unfold eps12
  positivity

theorem sumSq_l2normalize {sq : K → K} {v : List K}
    (hsq : sq (sumSq v) * sq (sumSq v) = sumSq v) (heps : eps12 K ≤ sq (sumSq v)) :
    sumSq (l2normalize sq v) = 1 := by
  have hpos : 0 < sq (sumSq v) := lt_of_lt_of_le eps12_pos heps
  have hmax : max (sq (sumSq v)) (eps12 K) = sq (sumSq v) := max_eq_left heps
  unfold l2normalize
  rw [hmax, sumSq_map_div, hsq]
  have hvpos : (0 : K) < sumSq v := by
    rw [← hsq]
    exact mul_pos hpos hpos
  exact div_self (ne_of_gt hvpos)

theorem entry_map_mul (row : List K) (m : K) (d : Nat) :
    entry (row.map (fun x => x * m)) d = entry row d * m := by
  unfold entry
  rw [List.getElem?_map]
  cases h : row[d]? with
  | none => simp [h]
  | some x => simp [h]

theorem entry_map_div (v : List K) (c : K) {d : Nat} (hd : d < v.length) :
    entry (v.map (fun x => x / c)) d = entry v d / c := by
  unfold entry
  rw [List.getElem?_map]
  cases h : v[d]? with
  | none =>
    exfalso
    rw [List.getElem?_eq_none_iff] at h
    omega
  | some x => simp [h]

theorem entry_zipWith_add {a b : List K} {d : Nat} (ha : d < a.length) (hb : d < b.length) :
    entry (List.zipWith (fun x y => x + y) a b) d = entry a d + entry b d := by
  unfold entry
  rw [List.getElem?_zipWith, List.getElem?_eq_getElem ha, List.getElem?_eq_getElem hb]
  simp

theorem entry_replicate (D : Nat) (d : Nat) : entry (List.replicate D (0 : K)) d = 0 := by
  unfold entry
  rw [List.getElem?_replicate]
  split <;> simp

theorem foldl_zipWith_length {rows : List (List K)} {acc : List K}
    (h : ∀ r ∈ rows, acc.length ≤ r.length) :
    (rows.foldl (fun a r => List.zipWith (fun x y => x + y) a r) acc).length = acc.length := by
  induction rows generalizing acc with
  | nil => rfl
  | cons r rs ih =>
    simp only [List.foldl_cons]
    have hlen : (List.zipWith (fun x y => x + y) acc r).length = acc.length := by
      rw [List.length_zipWith]
      exact min_eq_left (h r (by simp))
    rw [ih, hlen]
    intro r2 hr2
    rw [hlen]
    exact h r2 (by simp [hr2])

theorem foldl_zipWith_entry {rows : List (List K)} {acc : List K} {d : Nat}
    (h : ∀ r ∈ rows, acc.length ≤ r.length) (hd : d < acc.length) :
    entry (rows.foldl (fun a r => List.zipWith (fun x y => x + y) a r) acc) d
      = entry acc d + (rows.map (fun r => entry r d)).sum := by
  induction rows generalizing acc with
  | nil => simp
  | cons r rs ih =>
    simp only [List.foldl_cons, List.map_cons, List.sum_cons]
    have hlen : (List.zipWith (fun x y => x + y) acc r).length = acc.length := by
      rw [List.length_zipWith]
      exact min_eq_left (h r (by simp))
    rw [ih, entry_zipWith_add hd (lt_of_lt_of_le hd (h r (by simp)))]
    · ring
    · intro r2 hr2
      rw [hlen]
      exact h r2 (by simp [hr2])
    · rw [hlen]
      exact hd

theorem meanPooling_length {rows : List (List K)} {mask : List K} {D : Nat}
    (hne : rows ≠ []) (hrows : ∀ r ∈ rows, r.length = D) :
    (meanPooling rows mask).length = D := by
  have hhead : (rows.headD []).length = D := by
    cases rows with
    | nil => exact absurd rfl hne
    | cons r rs => exact hrows r (by simp)
  unfold meanPooling
  simp only [List.length_map]
  rw [foldl_zipWith_length]
  · rw [List.length_replicate]
    exact hhead
  · intro w hw
    obtain ⟨row, hrow, m, hm, rfl⟩ := mem_zipWith_exists hw
    rw [List.length_replicate, List.length_map, hhead, hrows row hrow]

theorem meanPooling_entry {rows : List (List K)} {mask : List K} {D : Nat} {d : Nat}
    (hne : rows ≠ []) (hrows : ∀ r ∈ rows, r.length = D) (hd : d < D) :
    entry (meanPooling rows mask) d
      = (List.zipWith (fun r m => entry r d * m) rows mask).sum
          / max mask.sum (eps9 K) := by
  have hhead : (rows.headD []).length = D := by
    cases rows with
    | nil => exact absurd rfl hne
    | cons r rs => exact hrows r (by simp)
  have hwlen : ∀ w ∈ List.zipWith (fun row m => row.map (fun x => x * m)) rows mask,
      (List.replicate (rows.headD []).length (0 : K)).length ≤ w.length := by
    intro w hw
    obtain ⟨row, hrow, m, hm, rfl⟩ := mem_zipWith_exists hw
    rw [List.length_replicate, List.length_map, hhead, hrows row hrow]
  have hdlen : d < (List.replicate (rows.headD []).length (0 : K)).length := by
    rw [List.length_replicate, hhead]
    exact hd
  unfold meanPooling
  rw [entry_map_div _ _ ?hlen]
  case hlen =>
    rw [foldl_zipWith_length hwlen, List.length_replicate, hhead]
    exact hd
  rw [foldl_zipWith_entry hwlen hdlen, entry_replicate, zero_add]
  have hmap : List.map (fun r => entry r d)
        (List.zipWith (fun row m => row.map (fun x => x * m)) rows mask)
      = List.zipWith (fun r m => entry r d * m) rows mask := by
    rw [List.map_zipWith]
    refine congrFun (congrFun (congrArg List.zipWith ?_) rows) mask
    funext row m
    exact entry_map_mul row m d
  rw [hmap]

theorem embedBatch_ok_dim {M : Service K E} {ts : List String} {vs : List (List K)}
    (h : embedBatch M ts = Except.ok vs) : ∀ v ∈ vs, v.length = M.dim := by
  obtain ⟨enc, he, rfl⟩ := embedBatch_ok h
  intro v hv
  rw [List.mem_map] at hv
  obtain ⟨p, hp, rfl⟩ := hv
  obtain ⟨hne, hrows, hmask⟩ := M.encode_shape ts enc he p hp
  unfold l2normalize
  rw [List.length_map]
  exact meanPooling_length hne hrows

theorem sum_eq_countOnes {mask : List K} (h01 : ∀ m ∈ mask, m = 0 ∨ m = 1) :
    mask.sum = ((mask.countP (fun m => decide (m = 1)) : Nat) : K) := by
  induction mask with
  | nil => simp
  | cons m ms ih =>
    have hm := h01 m (by simp)
    have hms : ∀ x ∈ ms, x = 0 ∨ x = 1 := fun x hx => h01 x (by simp [hx])
    rcases hm with rfl | rfl
    · rw [List.sum_cons, List.countP_cons]
      simp only [decide_eq_true_eq]
      rw [if_neg (by norm_num : ¬ (0 : K) = 1)]
      simp [ih hms]
    · rw [List.sum_cons, List.countP_cons, ih hms]
      push_cast
      simp
      ring

/-! ### Entry-point structure lemmas -/

theorem chunks_singleton {B : Nat} (hB : 0 < B) (x : α) :
    chunks B [x] = [[x]] := by
  rw [chunks_cons hB (by simp)]
  have h1 : List.take B [x] = [x] := List.take_of_length_le (by simp; omega)
  have h2 : List.drop B [x] = [] := List.drop_eq_nil_of_le (by simp; omega)
  rw [h1, h2, chunks_nil]

theorem embedSync_list_ok {M : Service K E} {ts : List String} {out : EmbedOut K}
    (h : embedSync M (TextInput.list ts) = Except.ok out) :
    ∃ rs, runChunks M (chunks M.batch_size ts) = Except.ok rs ∧ rs ≠ [] ∧
      out = EmbedOut.multi rs.flatten := by
  unfold embedSync at h
  simp only [normalizeInput] at h
  cases hr : runChunks M (chunks M.batch_size ts) with
  | error e => rw [hr] at h; cases h
  | ok rs =>
    rw [hr] at h
    cases rs with
    | nil => simp [vstack] at h
    | cons r rest =>
      simp only [vstack, finishEmbed] at h
      cases h
      exact ⟨r :: rest, rfl, by simp, rfl⟩

theorem embedSync_list_of_runChunks {M : Service K E} {ts : List String}
    {rs : List (List (List K))} (h : runChunks M (chunks M.batch_size ts) = Except.ok rs)
    (hne : rs ≠ []) :
    embedSync M (TextInput.list ts) = Except.ok (EmbedOut.multi rs.flatten) := by
  unfold embedSync
  simp only [normalizeInput]
  rw [h]
  cases rs with
  | nil => exact absurd rfl hne
  | cons r rest => simp [vstack, finishEmbed]

theorem embedSync_str_ok {M : Service K E} {t : String} {out : EmbedOut K}
    (h : embedSync M (TextInput.str t) = Except.ok out) :
    ∃ rs, runChunks M (chunks M.batch_size [t]) = Except.ok rs ∧ rs ≠ [] ∧
      ∃ v vrest, rs.flatten = v :: vrest ∧ out = EmbedOut.single v := by
  unfold embedSync at h
  simp only [normalizeInput] at h
  cases hr : runChunks M (chunks M.batch_size [t]) with
  | error e => rw [hr] at h; cases h
  | ok rs =>
    rw [hr] at h
    cases rs with
    | nil => simp [vstack] at h
    | cons r rest =>
      simp only [vstack] at h
      cases hf : (r :: rest).flatten with
      | nil => rw [hf] at h; simp [finishEmbed] at h
      | cons v vrest =>
        rw [hf] at h
        simp only [finishEmbed] at h
        cases h
        exact ⟨r :: rest, rfl, by simp, v, vrest, hf, rfl⟩

theorem embedSync_str_of_runChunks {M : Service K E} {t : String}
    {rs : List (List (List K))} {v : List K} {vrest : List (List K)}
    (h : runChunks M (chunks M.batch_size [t]) = Except.ok rs)
    (hne : rs ≠ []) (hf : rs.flatten = v :: vrest) :
    embedSync M (TextInput.str t) = Except.ok (EmbedOut.single v) := by
  unfold embedSync
  simp only [normalizeInput]
  rw [h]
  cases rs with
  | nil => exact absurd rfl hne
  | cons r rest =>
    simp only [vstack]
    rw [hf]
    simp [finishEmbed]

theorem embedAsync_ok_iff {M : Service K E} {ord : List Nat} {input : TextInput}
    {out : EmbedOut K} :
    embedAsync M ord input = Except.ok out ↔ embedSync M input = Except.ok out := by
  unfold embedAsync embedSync
  rw [runChunks_eq_collectOk]
  cases hg : gatherPositional ord
      ((chunks M.batch_size (normalizeInput input).1).map (fun b => embedBatch M b)) with
  | ok rs =>
    rw [gatherPositional_eq_ok_iff.mp hg]
  | error e =>
    cases hcc : collectOk
        ((chunks M.batch_size (normalizeInput input).1).map (fun b => embedBatch M b)) with
    | error e2 => simp
    | ok ys =>
      exfalso
      rw [gatherPositional_eq_ok_iff.mpr hcc] at hg
      cases hg

theorem embedAsync_error_of_chunk {M : Service K E} (ord : List Nat) {input : TextInput}
    {b : List String} {e : E} (hb : b ∈ chunks M.batch_size (normalizeInput input).1)
    (he : embedBatch M b = Except.error e) :
    ∃ e2, embedAsync M ord input = Except.error (EmbedError.inference e2) := by
  unfold embedAsync
  have hmem : Except.error e
      ∈ (chunks M.batch_size (normalizeInput input).1).map (fun b2 => embedBatch M b2) := by
    rw [List.mem_map]
    exact ⟨b, hb, he⟩
  obtain ⟨e2, he2⟩ := gatherPositional_error_of_mem ord hmem
  rw [he2]
  exact ⟨e2, rfl⟩

theorem runChunks_flatten_length {M : Service K E} {bs : List (List String)}
    {rs : List (List (List K))} (h : runChunks M bs = Except.ok rs) :
    rs.flatten.length = bs.flatten.length := by
  induction bs generalizing rs with
  | nil =>
    unfold runChunks at h
    cases h
    rfl
  | cons b bs ih =>
    unfold runChunks at h
    cases hb : embedBatch M b with
    | error e => rw [hb] at h; cases h
    | ok r =>
      rw [hb] at h
      cases hc : runChunks M bs with
      | error e => rw [hc] at h; cases h
      | ok rs2 =>
        rw [hc] at h
        cases h
        simp only [List.flatten_cons, List.length_append]
        rw [ih hc, embedBatch_ok_length hb]

theorem embedSync_list_count {M : Service K E} {ts : List String} {vs : List (List K)}
    (h : embedSync M (TextInput.list ts) = Except.ok (EmbedOut.multi vs)) :
    vs.length = ts.length := by
  obtain ⟨rs, hr, hne, hout⟩ := embedSync_list_ok h
  have hvs : vs = rs.flatten := by
    cases hout
    rfl
  rw [hvs, runChunks_flatten_length hr, chunks_flatten_self M.batch_size_pos]

theorem embedSync_vectors_mem_chunk {M : Service K E} {input : TextInput} {out : EmbedOut K}
    (h : embedSync M input = Except.ok out) :
    ∀ v ∈ vectorsOf out, ∃ b ∈ chunks M.batch_size (normalizeInput input).1,
      ∃ ws, embedBatch M b = Except.ok ws ∧ v ∈ ws := by
  intro v hv
  cases input with
  | str t =>
    obtain ⟨rs, hr, hne, w, vrest, hf, hout⟩ := embedSync_str_ok h
    cases hout
    simp only [vectorsOf, List.mem_singleton] at hv
    subst hv
    have hvmem : v ∈ rs.flatten := by
      rw [hf]
      simp
    rw [List.mem_flatten] at hvmem
    obtain ⟨r, hrmem, hvr⟩ := hvmem
    obtain ⟨b, hb, he⟩ := runChunks_ok_mem hr r hrmem
    exact ⟨b, by simpa [normalizeInput] using hb, r, he, hvr⟩
  | list ts =>
    obtain ⟨rs, hr, hne, hout⟩ := embedSync_list_ok h
    cases hout
    simp only [vectorsOf] at hv
    rw [List.mem_flatten] at hv
    obtain ⟨r, hrmem, hvr⟩ := hv
    obtain ⟨b, hb, he⟩ := runChunks_ok_mem hr r hrmem
    exact ⟨b, by simpa [normalizeInput] using hb, r, he, hvr⟩

theorem embedSync_vectors_dim {M : Service K E} {input : TextInput} {out : EmbedOut K}
    (h : embedSync M input = Except.ok out) :
    ∀ v ∈ vectorsOf out, v.length = M.dim := by
  intro v hv
  obtain ⟨b, hb, ws, he, hvw⟩ := embedSync_vectors_mem_chunk h v hv
  exact embedBatch_ok_dim he v hvw

theorem embedBatch_ok_mem_normalize {M : Service K E} {ts : List String} {vs : List (List K)}
    (h : embedBatch M ts = Except.ok vs) :
    ∀ v ∈ vs, ∃ p ∈ pooledOf M ts, v = l2normalize M.sq p := by
  obtain ⟨enc, he, rfl⟩ := embedBatch_ok h
  intro v hv
  rw [List.mem_map] at hv
  obtain ⟨p, hp, rfl⟩ := hv
  refine ⟨meanPooling p.1 p.2, ?_, rfl⟩
  unfold pooledOf
  rw [he]
  exact List.mem_map_of_mem _ hp

theorem embedSync_vectors_normalize {M : Service K E} {input : TextInput} {out : EmbedOut K}
    (h : embedSync M input = Except.ok out) :
    ∀ v ∈ vectorsOf out, ∃ b ∈ chunks M.batch_size (normalizeInput input).1,
      ∃ p ∈ pooledOf M b, v = l2normalize M.sq p := by
  intro v hv
  obtain ⟨b, hb, ws, he, hvw⟩ := embedSync_vectors_mem_chunk h v hv
  obtain ⟨p, hp, rfl⟩ := embedBatch_ok_mem_normalize he v hvw
  exact ⟨b, hb, p, hp, rfl⟩

theorem flatten_drop_mul {B : Nat} :
    ∀ (i : Nat) (ls : List (List α)), i ≤ ls.length →
      (∀ j, j < i → ∀ l, ls[j]? = some l → l.length = B) →
      ls.flatten.drop (i * B) = (ls.drop i).flatten := by
  intro i
  induction i with
  | zero =>
    intro ls _ _
    simp
  | succ i ih =>
    intro ls hle hfull
    cases ls with
    | nil => simp at hle
    | cons l ls2 =>
      have hl : l.length = B := hfull 0 (by omega) l (by simp)
      simp only [List.flatten_cons, List.drop_succ_cons]
      have he : (i + 1) * B = l.length + i * B := by rw [hl]; ring
      rw [he, List.drop_append]
      exact ih ls2 (by simpa using hle)
        (fun j hj l2 hl2 => hfull (j + 1) (by omega) l2 (by simpa using hl2))

/-! ### Claims -/

/-- C2: for a list input of `n ≥ 1` texts, a successful `embed_sync` call
returns exactly `n` vectors in input order: the input is partitioned into
`⌈n / B⌉` contiguous chunks of at most `B` texts each whose concatenation is
the input itself, chunk `i`'s vectors occupy positions
`[i·B, i·B + len(chunk i))` of the result, and `embed_async` returns the very
same vectors for every completion order of the chunk tasks. -/
theorem claim_C2 {M : Service K E} {ts : List String} {out : EmbedOut K}
    (hts : ts ≠ []) (hok : embedSync M (TextInput.list ts) = Except.ok out) :
    ∃ vs, out = EmbedOut.multi vs ∧
      vs.length = ts.length ∧
      (chunks M.batch_size ts).length = ts.length ⌈/⌉ M.batch_size ∧
      (∀ c ∈ chunks M.batch_size ts, c.length ≤ M.batch_size ∧ c ≠ []) ∧
      (chunks M.batch_size ts).flatten = ts ∧
      (∀ i, i < (chunks M.batch_size ts).length →
        ∃ c ws, (chunks M.batch_size ts)[i]? = some c ∧
          embedBatch M c = Except.ok ws ∧ ws.length = c.length ∧
          (vs.drop (i * M.batch_size)).take ws.length = ws) ∧
      (∀ ord, embedAsync M ord (TextInput.list ts) = Except.ok (EmbedOut.multi vs)) := by
  obtain ⟨rs, hr, hne, hout⟩ := embedSync_list_ok hok
  subst hout
  obtain ⟨hlen, hfor⟩ := runChunks_ok_forall hr
  refine ⟨rs.flatten, rfl, embedSync_list_count hok, ?_, ?_, ?_, ?_, ?_⟩
  · rw [chunks_length, Nat.ceilDiv_eq_add_pred_div]
  · intro c hc
    exact mem_chunks M.batch_size_pos hc
  · exact chunks_flatten_self M.batch_size_pos ts
  · intro i hi
    obtain ⟨c, ws, hc, hw, he⟩ := hfor i hi
    have hfull2 : ∀ j, j < i → ∀ l, rs[j]? = some l → l.length = M.batch_size := by
      intro j hj l hl
      obtain ⟨cj, wsj, hcj, hwj, hej⟩ := hfor j (by omega)
      rw [hl] at hwj
      cases hwj
      rw [chunks_getElem? (by omega)] at hcj
      cases hcj
      rw [embedBatch_ok_length hej]
      exact chunks_full_length (chunks_early_full M.batch_size_pos hi hj)
    have hile : i ≤ rs.length := by omega
    have hdrop : rs.flatten.drop (i * M.batch_size) = (rs.drop i).flatten :=
      flatten_drop_mul i rs hile hfull2
    have hwi : i < rs.length := by omega
    have hcons : rs.drop i = ws :: rs.drop (i + 1) := by
      have hgc := List.drop_eq_getElem_cons hwi
      rw [List.getElem?_eq_getElem hwi] at hw
      cases hw
      exact hgc
    refine ⟨c, ws, hc, he, embedBatch_ok_length he, ?_⟩
    rw [hdrop, hcons, List.flatten_cons]
    exact List.take_left ws _
  · intro ord
    exact embedAsync_ok_iff.mpr hok

/-- C1: every vector a successful `embed_sync` or `embed_async` call hands
to the caller has unit L2 norm, stated exactly as: its sum of squares is 1.
`F.normalize` divides by `max(‖v‖₂, 1e-12)`, so this needs the square-root
routine to be exact and to clear the `1e-12` floor on the pooled vectors the
call actually normalizes; that is the hypothesis `hsq`. -/
theorem claim_C1 {M : Service K E} (input : TextInput)
    (hsq : ∀ b ∈ chunks M.batch_size (normalizeInput input).1, ∀ p ∈ pooledOf M b,
      M.sq (sumSq p) * M.sq (sumSq p) = sumSq p ∧ eps12 K ≤ M.sq (sumSq p)) :
    (∀ out, embedSync M input = Except.ok out → ∀ v ∈ vectorsOf out, sumSq v = 1) ∧
    (∀ ord out, embedAsync M ord input = Except.ok out → ∀ v ∈ vectorsOf out, sumSq v = 1) := by
  have hmain : ∀ out, embedSync M input = Except.ok out → ∀ v ∈ vectorsOf out, sumSq v = 1 := by
    intro out hok v hv
    obtain ⟨b, hb, p, hp, rfl⟩ := embedSync_vectors_normalize hok v hv
    obtain ⟨h1, h2⟩ := hsq b hb p hp
    exact sumSq_l2normalize h1 h2
  exact ⟨hmain, fun ord out hok => hmain out (embedAsync_ok_iff.mp hok)⟩

/-- C4: a single-string request yields a single flat vector (not a
one-element list), that vector is exactly the one vector of the
corresponding one-element list request (`embed([t])[0] = embed(t)`), and the
same holds for `embed_async` because it agrees with `embed_sync` on every
successful result. -/
theorem claim_C4 (M : Service K E) (t : String) :
    (∀ out, embedSync M (TextInput.str t) = Except.ok out →
      ∃ v, out = EmbedOut.single v) ∧
    (∀ vs, embedSync M (TextInput.list [t]) = Except.ok (EmbedOut.multi vs) →
      ∃ v, vs = [v] ∧ embedSync M (TextInput.str t) = Except.ok (EmbedOut.single v)) ∧
    (∀ v, embedSync M (TextInput.str t) = Except.ok (EmbedOut.single v) →
      embedSync M (TextInput.list [t]) = Except.ok (EmbedOut.multi [v])) ∧
    (∀ ord out, embedAsync M ord (TextInput.str t) = Except.ok out ↔
      embedSync M (TextInput.str t) = Except.ok out) ∧
    (∀ ord out, embedAsync M ord (TextInput.list [t]) = Except.ok out ↔
      embedSync M (TextInput.list [t]) = Except.ok out) := by
  refine ⟨?_, ?_, ?_, fun ord out => embedAsync_ok_iff, fun ord out => embedAsync_ok_iff⟩
  · intro out hok
    obtain ⟨rs, hr, hne, v, vrest, hf, hout⟩ := embedSync_str_ok hok
    exact ⟨v, hout⟩
  · intro vs hok
    have hcount : vs.length = 1 := by
      rw [embedSync_list_count hok]
      rfl
    obtain ⟨rs, hr, hne, hout⟩ := embedSync_list_ok hok
    have hvs : vs = rs.flatten := by
      cases hout
      rfl
    cases vs with
    | nil => cases hcount
    | cons v vtail =>
      cases vtail with
      | cons a b => simp at hcount
      | nil =>
        refine ⟨v, rfl, ?_⟩
        exact embedSync_str_of_runChunks hr hne hvs.symm
  · intro v hok
    obtain ⟨rs, hr, hne, w, vrest, hf, hout⟩ := embedSync_str_ok hok
    have hw : w = v := by
      cases hout
      rfl
    subst hw
    have hlen : rs.flatten.length = 1 := by
      rw [runChunks_flatten_length hr, chunks_flatten_self M.batch_size_pos]
      rfl
    have hrest : vrest = [] := by
      rw [hf] at hlen
      simpa using hlen
    have hfl : rs.flatten = [w] := by
      rw [hf, hrest]
    have := embedSync_list_of_runChunks hr hne
    rw [hfl] at this
    exact this

/-- C5: `embed_sync` and `embed_async` implement the same batch-scheduler
function: for every input and every completion order of the chunk tasks
they return the same successful result, and one fails exactly when the other
does. -/
theorem claim_C5 (M : Service K E) (ord : List Nat) (input : TextInput) :
    (∀ r, embedAsync M ord input = Except.ok r ↔ embedSync M input = Except.ok r) ∧
    ((∃ e, embedAsync M ord input = Except.error e) ↔
      (∃ e, embedSync M input = Except.error e)) := by
  refine ⟨fun r => embedAsync_ok_iff, ?_, ?_⟩
  · intro ⟨e, he⟩
    cases hs : embedSync M input with
    | error e2 => exact ⟨e2, rfl⟩
    | ok r =>
      exfalso
      have h2 : embedAsync M ord input = Except.ok r := embedAsync_ok_iff.mpr hs
      rw [h2] at he
      cases he
  · intro ⟨e, he⟩
    cases ha : embedAsync M ord input with
    | error e2 => exact ⟨e2, rfl⟩
    | ok r =>
      exfalso
      have := embedAsync_ok_iff.mp ha
      rw [this] at he
      cases he

theorem eq_replicate_zero {v : List K} {D : Nat} (hlen : v.length = D)
    (hz : ∀ d, d < D → entry v d = 0) : v = List.replicate D (0 : K) := by
  apply List.ext_getElem?
  intro i
  rw [List.getElem?_replicate]
  by_cases hi : i < D
  · rw [if_pos hi]
    have hiv : i < v.length := by omega
    have := hz i hi
    unfold entry at this
    rw [List.getElem?_eq_getElem hiv] at this ⊢
    simp at this
    simp [this]
  · rw [if_neg hi]
    rw [List.getElem?_eq_none_iff]
    omega

/-- C3: on well-formed shapes (a nonempty row block of uniform width `D` and
a 0/1 attention mask), `_mean_pooling` computes, entrywise, the masked sum
of the per-token rows divided by the number of real tokens floored at
`1e-9`; `_embed_batch` then rescales every pooled vector entrywise by
`1 / max(‖p‖₂, 1e-12)`, which yields a unit-norm vector (sum of squares 1)
whenever the square root is exact and clears the `1e-12` floor. -/
theorem claim_C3 (M : Service K E) :
    (∀ (rows : List (List K)) (mask : List K) (D : Nat), rows ≠ [] →
      (∀ r ∈ rows, r.length = D) → (∀ m ∈ mask, m = 0 ∨ m = 1) →
      ∀ d, d < D →
        entry (meanPooling rows mask) d
          = (List.zipWith (fun r m => entry r d * m) rows mask).sum
              / max ((mask.countP (fun m => decide (m = 1)) : Nat) : K) (eps9 K)) ∧
    (∀ ts vs, embedBatch M ts = Except.ok vs →
      vs = (pooledOf M ts).map (fun p => l2normalize M.sq p)) ∧
    (∀ (p : List K) (d : Nat), d < p.length →
      entry (l2normalize M.sq p) d = entry p d / max (M.sq (sumSq p)) (eps12 K)) ∧
    (∀ p : List K, M.sq (sumSq p) * M.sq (sumSq p) = sumSq p →
      eps12 K ≤ M.sq (sumSq p) → sumSq (l2normalize M.sq p) = 1) := by
  refine ⟨?_, ?_, ?_, ?_⟩
  · intro rows mask D hne hrows h01 d hd
    rw [meanPooling_entry hne hrows hd, sum_eq_countOnes h01]
  · intro ts vs h
    obtain ⟨enc, he, rfl⟩ := embedBatch_ok h
    unfold pooledOf
    rw [he, List.map_map]
    rfl
  · intro p d hd
    exact entry_map_div p _ hd
  · intro p h1 h2
    exact sumSq_l2normalize h1 h2

/-- C6 (amended): when the single empty string tokenizes to padding-only
content (an all-zero attention mask), `embed([""])` raises no
division-by-zero error — both divisors are clamped to positive values — and
returns a finite vector; but that vector is the zero vector, whose L2 norm
is 0, not 1. -/
theorem claim_C6 {M : Service K E} {rows : List (List K)} {mask : List K}
    (henc : M.encode [""] = Except.ok [(rows, mask)])
    (hmask0 : ∀ m ∈ mask, m = 0) :
    embedSync M (TextInput.list [""]) =
        Except.ok (EmbedOut.multi [List.replicate M.dim 0]) ∧
    (0 : K) < max mask.sum (eps9 K) ∧
    (0 : K) < max (M.sq (sumSq (List.replicate M.dim (0 : K)))) (eps12 K) ∧
    sumSq (List.replicate M.dim (0 : K)) = 0 := by
  obtain ⟨hne, hrows, hmlen⟩ :=
    M.encode_shape [""] [(rows, mask)] henc (rows, mask) (by simp)
  have hpool : meanPooling rows mask = List.replicate M.dim (0 : K) := by
    apply eq_replicate_zero (meanPooling_length hne hrows)
    intro d hd
    rw [meanPooling_entry hne hrows hd]
    have hzero : (List.zipWith (fun r m => entry r d * m) rows mask).sum = 0 := by
      apply List.sum_eq_zero
      intro x hx
      obtain ⟨r, hr, m, hm, rfl⟩ := mem_zipWith_exists hx
      rw [hmask0 m hm, mul_zero]
    rw [hzero, zero_div]
  have hnorm : l2normalize M.sq (List.replicate M.dim (0 : K))
      = List.replicate M.dim (0 : K) := by
    unfold l2normalize
    rw [List.map_replicate, zero_div]
  have hbatch : embedBatch M [""] = Except.ok [List.replicate M.dim (0 : K)] := by
    unfold embedBatch
    rw [henc]
    simp [hpool, hnorm]
  have hrun : runChunks M (chunks M.batch_size [""])
      = Except.ok [[List.replicate M.dim (0 : K)]] := by
    rw [chunks_singleton M.batch_size_pos]
    unfold runChunks
    rw [hbatch]
    rfl
  refine ⟨?_, ?_, ?_, ?_⟩
  · have := embedSync_list_of_runChunks hrun (by simp)
    simpa using this
  · exact lt_of_lt_of_le eps9_pos (le_max_right _ _)
  · exact lt_of_lt_of_le eps12_pos (le_max_right _ _)
  · simp [sumSq]

/-- C6 counterexample: in the all-padding scenario the claim premises
(`toyZ` tokenizes the empty string to mask `[0, 0]`), `embed([""])` returns
the zero vector, whose sum of squares is 0 and not 1 — so the returned
vector does not have unit L2 norm and the claim as stated is false. -/
theorem claim_C6_counterexample :
    embedSync toyZ (TextInput.list [""]) = Except.ok (EmbedOut.multi [[(0 : ℚ), 0]]) ∧
    sumSq [(0 : ℚ), 0] ≠ 1 := by
  constructor
  · norm_num [embedSync, normalizeInput, chunks, toyZ, runChunks, embedBatch, meanPooling,
      l2normalize, sumSq, eps9, eps12, vstack, finishEmbed,
      List.zipWith_cons_cons, List.replicate_succ, Function.comp]
  · norm_num [sumSq]

/-- C7 (amended): an empty list reaches the scheduler with no explicit
validation, but the call does fail inside the core: with zero chunks
`np.vstack` receives an empty list of arrays and raises `ValueError`, in
both `embed_sync` and `embed_async`; the `/embed/batch` transport endpoint
rejects the empty list with a 400 before the core is called. -/
theorem claim_C7 (M : Service K E) (ord : List Nat) :
    embedSync M (TextInput.list []) = Except.error EmbedError.emptyVstack ∧
    embedAsync M ord (TextInput.list []) = Except.error EmbedError.emptyVstack ∧
    apiEmbedBatch M ord [] = Except.error ApiError.badRequestEmpty := by
  refine ⟨?_, ?_, by simp [apiEmbedBatch]⟩
  · unfold embedSync
    simp only [normalizeInput, chunks_nil]
    rfl
  · unfold embedAsync
    simp only [normalizeInput, chunks_nil, List.map_nil]
    have hff : firstFailure ord ([] : List (Except E (List (List K)))) = none := by
      unfold firstFailure
      rw [List.findSome?_eq_none_iff]
      intro i _
      simp
    unfold gatherPositional
    rw [hff]
    rfl

/-- C7 counterexample: at the concrete service `toyA`, the empty-list call
fails inside the core with the `ValueError` of `np.vstack([])` — refuting
the claim that the call does not fail inside the core. -/
theorem claim_C7_counterexample :
    embedSync toyA (TextInput.list []) = Except.error EmbedError.emptyVstack ∧
    embedAsync toyA [] (TextInput.list []) = Except.error EmbedError.emptyVstack := by
  constructor
  · simp [embedSync, normalizeInput, chunks, runChunks, vstack]
  · simp only [embedAsync, normalizeInput, chunks, gatherPositional, firstFailure, collectOk,
      vstack, List.findSome?_nil]

/-- C8: if inference raises for any chunk of an `embed_async` call, the
whole call fails with a single propagated inference exception — no
successful (partial) result is ever returned, whatever the completion order
of the chunk tasks. -/
theorem claim_C8 {M : Service K E} {ts : List String} (ord : List Nat)
    {b : List String} {e : E} (hb : b ∈ chunks M.batch_size ts)
    (he : embedBatch M b = Except.error e) :
    (∃ e2, embedAsync M ord (TextInput.list ts)
        = Except.error (EmbedError.inference e2)) ∧
    (∀ r, embedAsync M ord (TextInput.list ts) ≠ Except.ok r) := by
  have h1 : ∃ e2, embedAsync M ord (TextInput.list ts)
      = Except.error (EmbedError.inference e2) :=
    embedAsync_error_of_chunk ord (by simpa [normalizeInput] using hb) he
  refine ⟨h1, ?_⟩
  intro r hr
  obtain ⟨e2, he2⟩ := h1
  rw [he2] at hr
  cases hr

/-- C9: `get_embedding_dimension` probes the model by embedding the fixed
string "test" through `embed_sync`: a successful call returns the length of
that probe vector, which is the model's hidden size `dim`, and equals the
length of every vector any successful `embed_sync` / `embed_async` call
returns (so repeated calls always return this same integer). -/
theorem claim_C9 {M : Service K E} {d : Nat}
    (hd : getEmbeddingDimension M = Except.ok d) :
    d = M.dim ∧
    (∃ v, embedSync M (TextInput.str "test") = Except.ok (EmbedOut.single v) ∧
      d = v.length) ∧
    (∀ input out, embedSync M input = Except.ok out →
      ∀ v ∈ vectorsOf out, v.length = d) ∧
    (∀ ord input out, embedAsync M ord input = Except.ok out →
      ∀ v ∈ vectorsOf out, v.length = d) := by
  cases hs : embedSync M (TextInput.str "test") with
  | error e =>
    unfold getEmbeddingDimension at hd
    rw [hs] at hd
    cases hd
  | ok out =>
    obtain ⟨rs, hr, hne, v, vrest, hf, hout⟩ := embedSync_str_ok hs
    subst hout
    unfold getEmbeddingDimension at hd
    rw [hs] at hd
    have hd2 : (Except.ok v.length : Except (EmbedError E) Nat) = Except.ok d := hd
    cases hd2
    have hvdim : v.length = M.dim := by
      apply embedSync_vectors_dim hs
      simp [vectorsOf]
    refine ⟨hvdim, ⟨v, rfl, rfl⟩, ?_, ?_⟩
    · intro input out2 hok v2 hv2
      rw [embedSync_vectors_dim hok v2 hv2, hvdim]
    · intro ord input out2 hok v2 hv2
      rw [embedSync_vectors_dim (embedAsync_ok_iff.mp hok) v2 hv2, hvdim]

/-- C10: for a successful non-empty `/embed` request the endpoint inspects
the first element of the core's result: a list query of `n ≥ 1` strings
yields `count = n` and `dimension` equal to the length of the first
returned vector; a single-string query yields the flat vector itself with
`count = 1` and `dimension` its length. -/
theorem claim_C10 (M : Service K E) (ord : List Nat) :
    (∀ ts out, ts ≠ [] → embedAsync M ord (TextInput.list ts) = Except.ok out →
      ∃ vs, out = EmbedOut.multi vs ∧ vs.length = ts.length ∧
        apiEmbed M ord (TextInput.list ts) = Except.ok
          ⟨EmbedOut.multi vs, (vs.headD []).length, ts.length⟩) ∧
    (∀ t out, 0 < M.dim → embedAsync M ord (TextInput.str t) = Except.ok out →
      ∃ v, out = EmbedOut.single v ∧
        apiEmbed M ord (TextInput.str t) = Except.ok ⟨EmbedOut.single v, v.length, 1⟩) := by
  constructor
  · intro ts out hts hok
    have hsync := embedAsync_ok_iff.mp hok
    obtain ⟨rs, hr, hne, hout⟩ := embedSync_list_ok hsync
    subst hout
    have hcount : rs.flatten.length = ts.length := embedSync_list_count hsync
    refine ⟨rs.flatten, rfl, hcount, ?_⟩
    unfold apiEmbed
    rw [hok]
    cases hfl : rs.flatten with
    | nil =>
      exfalso
      rw [hfl] at hcount
      exact hts (List.eq_nil_of_length_eq_zero hcount.symm)
    | cons v vtail =>
      rw [hfl] at hcount
      simp [responseOf]
      simp at hcount
      omega
  · intro t out hdim hok
    have hsync := embedAsync_ok_iff.mp hok
    obtain ⟨rs, hr, hne, v, vrest, hf, hout⟩ := embedSync_str_ok hsync
    subst hout
    have hvdim : v.length = M.dim := by
      apply embedSync_vectors_dim hsync
      simp [vectorsOf]
    refine ⟨v, rfl, ?_⟩
    unfold apiEmbed
    rw [hok]
    cases hv : v with
    | nil =>
      exfalso
      rw [hv] at hvdim
      simp at hvdim
      omega
    | cons x xs =>
      simp [responseOf]

/-! ### Witnesses: the claim theorems applied at concrete services -/

theorem claim_C1_witness :
    embedSync toyA (TextInput.list ["x"]) = Except.ok (EmbedOut.multi [[(3 : ℚ)/5, 4/5]]) ∧
    sumSq [(3 : ℚ)/5, 4/5] = 1 := by
  have hok : embedSync toyA (TextInput.list ["x"])
      = Except.ok (EmbedOut.multi [[(3 : ℚ)/5, 4/5]]) := by
    norm_num [embedSync, normalizeInput, chunks, toyA, runChunks, embedBatch, meanPooling,
      l2normalize, sumSq, eps9, eps12, vstack, finishEmbed,
      List.zipWith_cons_cons, List.replicate_succ, Function.comp]
  have hch : chunks toyA.batch_size (normalizeInput (TextInput.list ["x"])).1 = [["x"]] := by
    norm_num [chunks, normalizeInput, toyA]
  have hpool : pooledOf toyA ["x"] = [[3, 4]] := by
    norm_num [pooledOf, toyA, meanPooling, eps9,
      List.zipWith_cons_cons, List.replicate_succ, Function.comp]
  have hsq : ∀ b ∈ chunks toyA.batch_size (normalizeInput (TextInput.list ["x"])).1,
      ∀ p ∈ pooledOf toyA b,
      toyA.sq (sumSq p) * toyA.sq (sumSq p) = sumSq p ∧ eps12 ℚ ≤ toyA.sq (sumSq p) := by
    intro b hb p hp
    rw [hch] at hb
    simp only [List.mem_singleton] at hb
    subst hb
    rw [hpool] at hp
    simp only [List.mem_singleton] at hp
    subst hp
    norm_num [toyA, sumSq, eps12]
  exact ⟨hok, (claim_C1 (TextInput.list ["x"]) hsq).1 _ hok [(3 : ℚ)/5, 4/5]
    (by simp [vectorsOf])⟩

theorem claim_C2_witness :
    embedSync toyB (TextInput.list ["a", "b", "c"]) = Except.ok
      (EmbedOut.multi [[(3 : ℚ)/5, 4/5], [3/5, 4/5], [3/5, 4/5]]) ∧
    embedAsync toyB [1, 0] (TextInput.list ["a", "b", "c"]) = Except.ok
      (EmbedOut.multi [[(3 : ℚ)/5, 4/5], [3/5, 4/5], [3/5, 4/5]]) := by
  have hok : embedSync toyB (TextInput.list ["a", "b", "c"]) = Except.ok
      (EmbedOut.multi [[(3 : ℚ)/5, 4/5], [3/5, 4/5], [3/5, 4/5]]) := by
    norm_num [embedSync, normalizeInput, chunks, List.range', toyB, runChunks, embedBatch,
      meanPooling, l2normalize, sumSq, eps9, eps12, vstack, finishEmbed,
      List.zipWith_cons_cons, List.replicate_succ, Function.comp]
  refine ⟨hok, ?_⟩
  obtain ⟨vs, hvs, h1, h2, h3, h4, h5, h6⟩ := claim_C2 (by simp) hok
  have hvs2 : vs = [[(3 : ℚ)/5, 4/5], [3/5, 4/5], [3/5, 4/5]] := by
    injection hvs with h
    exact h.symm
  rw [hvs2] at h6
  exact h6 [1, 0]

theorem claim_C3_witness :
    entry (meanPooling [[(3 : ℚ)], [5]] [1, 0]) 0 = 3 ∧
    sumSq (l2normalize toyA.sq [(3 : ℚ), 4]) = 1 := by
  constructor
  · rw [(claim_C3 toyA).1 [[(3 : ℚ)], [5]] [1, 0] 1 (by simp)
      (by intro r hr; simp at hr; rcases hr with rfl | rfl <;> rfl)
      (by intro m hm; simp at hm; rcases hm with rfl | rfl <;> norm_num)
      0 (by norm_num)]
    norm_num [entry, eps9, List.zipWith_cons_cons]
  · apply (claim_C3 toyA).2.2.2 [(3 : ℚ), 4] <;> norm_num [toyA, sumSq, eps12]

theorem claim_C4_witness :
    embedSync toyA (TextInput.list ["x"]) = Except.ok (EmbedOut.multi [[(3 : ℚ)/5, 4/5]]) ∧
    embedSync toyA (TextInput.str "x") = Except.ok (EmbedOut.single [(3 : ℚ)/5, 4/5]) := by
  have hok : embedSync toyA (TextInput.list ["x"])
      = Except.ok (EmbedOut.multi [[(3 : ℚ)/5, 4/5]]) := by
    norm_num [embedSync, normalizeInput, chunks, toyA, runChunks, embedBatch, meanPooling,
      l2normalize, sumSq, eps9, eps12, vstack, finishEmbed,
      List.zipWith_cons_cons, List.replicate_succ, Function.comp]
  refine ⟨hok, ?_⟩
  obtain ⟨v, hv, hsingle⟩ := (claim_C4 toyA "x").2.1 [[(3 : ℚ)/5, 4/5]] hok
  have hveq : v = [(3 : ℚ)/5, 4/5] := by simpa using hv.symm
  subst hveq
  exact hsingle

theorem claim_C5_witness :
    embedAsync toyA [0] (TextInput.list ["x"])
        = Except.ok (EmbedOut.multi [[(3 : ℚ)/5, 4/5]]) ↔
    embedSync toyA (TextInput.list ["x"])
        = Except.ok (EmbedOut.multi [[(3 : ℚ)/5, 4/5]]) :=
  (claim_C5 toyA [0] (TextInput.list ["x"])).1 _

theorem claim_C6_witness :
    embedSync toyZ (TextInput.list [""])
        = Except.ok (EmbedOut.multi [List.replicate toyZ.dim 0]) ∧
    sumSq (List.replicate toyZ.dim (0 : ℚ)) = 0 := by
  have henc : toyZ.encode [""] = Except.ok [([[1, 2], [3, 4]], [0, 0])] := by
    simp [toyZ]
  have hmask0 : ∀ m ∈ [(0 : ℚ), 0], m = 0 := by
    intro m hm
    simp at hm
    rcases hm with rfl | rfl <;> rfl
  obtain ⟨h1, h2, h3, h4⟩ := claim_C6 henc hmask0
  exact ⟨h1, h4⟩

theorem claim_C7_witness :
    embedSync toyA (TextInput.list []) = Except.error EmbedError.emptyVstack ∧
    embedAsync toyA [] (TextInput.list []) = Except.error EmbedError.emptyVstack ∧
    apiEmbedBatch toyA [] [] = Except.error ApiError.badRequestEmpty :=
  claim_C7 toyA []

theorem claim_C8_witness :
    (["c"] ∈ chunks toyF.batch_size ["a", "b", "c"]) ∧
    embedBatch toyF ["c"] = Except.error () ∧
    (∀ r, embedAsync toyF [0, 1] (TextInput.list ["a", "b", "c"]) ≠ Except.ok r) := by
  have hb : ["c"] ∈ chunks toyF.batch_size ["a", "b", "c"] := by
    norm_num [chunks, toyF, List.range']
  have he : embedBatch toyF ["c"] = Except.error () := by
    simp [embedBatch, toyF]
  exact ⟨hb, he, (claim_C8 [0, 1] hb he).2⟩

theorem claim_C9_witness :
    getEmbeddingDimension toyA = Except.ok 2 ∧ (2 : Nat) = toyA.dim := by
  have hd : getEmbeddingDimension toyA = Except.ok 2 := by
    norm_num [getEmbeddingDimension, embedSync, normalizeInput, chunks, toyA, runChunks,
      embedBatch, meanPooling, l2normalize, sumSq, eps9, eps12, vstack, finishEmbed,
      List.zipWith_cons_cons, List.replicate_succ, Function.comp]
  exact ⟨hd, (claim_C9 hd).1⟩

theorem claim_C10_witness :
    apiEmbed toyA [0] (TextInput.list ["x", "y"]) = Except.ok
      ⟨EmbedOut.multi [[(3 : ℚ)/5, 4/5], [3/5, 4/5]], 2, 2⟩ := by
  have hok : embedAsync toyA [0] (TextInput.list ["x", "y"]) = Except.ok
      (EmbedOut.multi [[(3 : ℚ)/5, 4/5], [3/5, 4/5]]) := by
    norm_num [embedAsync, normalizeInput, chunks, toyA, gatherPositional, firstFailure,
      collectOk, embedBatch, meanPooling, l2normalize, sumSq, eps9, eps12, vstack,
      finishEmbed, List.findSome?_cons, List.findSome?_nil,
      List.zipWith_cons_cons, List.replicate_succ, Function.comp]
  obtain ⟨vs, hvs, hlen, happly⟩ := (claim_C10 toyA [0]).1 ["x", "y"] _ (by simp) hok
  have hvs2 : vs = [[(3 : ℚ)/5, 4/5], [3/5, 4/5]] := by
    injection hvs with h
    exact h.symm
  rw [hvs2] at happly
  simpa using happly

end EmbedSvc
